import Mathlib

/-!
Verification development for the Carrabis blog-archive content pipeline
(`src/app.py`): the junk-pattern matcher `clean_body_text`, the markup
sanitizer `sanitize_html`, and the content selector `get_display_html`.

Modelling conventions (shallow embedding):
* Python strings are Lean `String` / `List Char`; `len` is the character count.
* Python regexes over the fixed pattern set of `app.py` are modelled by a
  small combinator language `RE` whose `lens` function returns all match
  lengths at a position, ordered by Python's backtracking preference
  (greedy quantifiers longest-first, lazy shortest-first, alternatives in
  order).  `re.search` is leftmost position with a nonempty `lens` list;
  the chosen extent is the head of that list.  Character classes `\s`,
  `\w`, `\d` and case folding are modelled over ASCII.
* BeautifulSoup parsing is external library code; its output is modelled
  by the `Node` forest type, and `sanitize_html` consumes the parsed
  forest.  Serialisation (`str(soup)`) is modelled by `renderDoc`.
-/

namespace Carrabis

/-- Python whitespace class `\s` (ASCII part): space, tab, LF, CR, VT, FF. -/
def isPySpace (c : Char) : Bool :=
  c = ' ' || c = '\t' || c = '\n' || c = '\r' || c = '\x0b' || c = '\x0c'

/-- Python word class `\w` (ASCII part): letters, digits, underscore. -/
def isPyWord (c : Char) : Bool :=
  c.isAlpha || c.isDigit || c = '_'

/-- Python `str.lstrip()` over chars. -/
def lstripC (l : List Char) : List Char := l.dropWhile isPySpace

/-- Python `str.rstrip()` over chars. -/
def rstripC (l : List Char) : List Char := (l.reverse.dropWhile isPySpace).reverse

/-- Python `str.strip()` over chars. -/
def stripC (l : List Char) : List Char := lstripC (rstripC l)

/-- Predicate `Sub a b`: `a` is a contiguous substring of `b`. -/
def Sub (a b : List Char) : Prop := ∃ p q, b = p ++ a ++ q

theorem sub_refl (a : List Char) : Sub a a := ⟨[], [], by simp⟩

theorem sub_trans {a b c : List Char} (h1 : Sub a b) (h2 : Sub b c) : Sub a c := by
  obtain ⟨p, q, rfl⟩ := h1
  obtain ⟨r, s, rfl⟩ := h2
  exact ⟨r ++ p, q ++ s, by simp⟩

theorem sub_take (n : Nat) (l : List Char) : Sub (l.take n) l :=
  ⟨[], l.drop n, by simp⟩

theorem sub_drop (n : Nat) (l : List Char) : Sub (l.drop n) l :=
  ⟨l.take n, [], by simp⟩

theorem sub_dropWhile (p : Char → Bool) (l : List Char) : Sub (l.dropWhile p) l :=
  ⟨l.takeWhile p, [], by simp [List.takeWhile_append_dropWhile]⟩

theorem sub_lstrip (l : List Char) : Sub (lstripC l) l := sub_dropWhile _ l

theorem rstrip_eq_take (l : List Char) : ∃ n, rstripC l = l.take n := by
  refine ⟨(l.reverse.dropWhile isPySpace).length, ?_⟩
  have h : (List.dropWhile isPySpace l.reverse).reverse ++
      (List.takeWhile isPySpace l.reverse).reverse = l := by
    rw [← List.reverse_append, List.takeWhile_append_dropWhile, List.reverse_reverse]
  conv_rhs => rw [← h]
  rw [rstripC]
  exact (List.take_left' (by simp)).symm

theorem sub_rstrip (l : List Char) : Sub (rstripC l) l := by
  obtain ⟨n, hn⟩ := rstrip_eq_take l
  rw [hn]; exact sub_take n l

theorem sub_strip (l : List Char) : Sub (stripC l) l :=
  sub_trans (sub_lstrip (rstripC l)) (sub_rstrip l)

theorem sub_length_le {a b : List Char} (h : Sub a b) : a.length ≤ b.length := by
  obtain ⟨p, q, rfl⟩ := h
  simp; omega

/-! ### Regex combinators

Priority-ordered match-length semantics for the closed set of regexes in
`app.py`.  Stars and pluses only ever range over single-character classes
there, which keeps the semantics finite and executable. -/

inductive RE where
  | lit : List Char → RE
  | cls : (Char → Bool) → RE
  | starG : (Char → Bool) → RE
  | starL : (Char → Bool) → RE
  | plusG : (Char → Bool) → RE
  | seq : RE → RE → RE
  | alt : RE → RE → RE
  | eol : RE

/-- Length of the maximal run of characters satisfying `p` at the front. -/
def runLen (p : Char → Bool) : List Char → Nat
  | [] => 0
  | c :: cs => if p c then runLen p cs + 1 else 0

/-- All possible match lengths of `r` at the front of `cs`, in Python
backtracking preference order (head = the extent Python's engine picks). -/
def RE.lens : RE → List Char → List Nat
  | .lit s, cs => if s.isPrefixOf cs then [s.length] else []
  | .cls p, cs =>
      match cs with
      | [] => []
      | c :: _ => if p c then [1] else []
  | .starG p, cs => (List.range (runLen p cs + 1)).reverse
  | .starL p, cs => List.range (runLen p cs + 1)
  | .plusG p, cs => (List.range (runLen p cs)).reverse.map (· + 1)
  | .seq a b, cs => (a.lens cs).flatMap (fun n => (b.lens (cs.drop n)).map (n + ·))
  | .alt a b, cs => a.lens cs ++ b.lens cs
  | .eol, cs => if cs = [] ∨ cs = ['\n'] then [0] else []

/-- Scan of `re.search`: leftmost index at which the pattern matches. -/
def reSearchFrom (r : RE) : List Char → Nat → Option Nat
  | cs, i =>
    if (RE.lens r cs).isEmpty then
      match cs with
      | [] => none
      | _ :: tl => reSearchFrom r tl (i + 1)
    else some i

/-- Python `re.search(pattern, text)`: start index of the leftmost match. -/
def reSearch (r : RE) (cs : List Char) : Option Nat := reSearchFrom r cs 0

def eps : RE := RE.lit []

/-- Concatenation of a nonempty pattern list (right-nested `seq`). -/
def reCat : List RE → RE
  | [] => eps
  | [r] => r
  | r :: rs => RE.seq r (reCat rs)

/-- Case-insensitive literal (ASCII folding), for `re.IGNORECASE` patterns. -/
def ciLit (s : String) : RE :=
  reCat (s.data.map (fun c => RE.cls (fun x => x.toLower = c.toLower)))

def lit (s : String) : RE := RE.lit s.data
def wsP : RE := RE.plusG isPySpace
def wsS : RE := RE.starG isPySpace
def dP : RE := RE.plusG Char.isDigit
def wP : RE := RE.plusG isPyWord
def reOpt (r : RE) : RE := RE.alt r eps
def dotC : Char → Bool := fun c => c ≠ '\n'
def anyC : Char → Bool := fun _ => true

/-! ### `clean_body_text` (src/app.py lines 218-267) -/

/-- The ordered `cut_patterns` list of `clean_body_text`, one `RE` per
source regex, in source order. -/
def cut_patterns : List RE :=
  [ reCat [lit "Follow", wsP, lit "@", wP, wsP, lit "Share", wsP, lit "Tweet"],
    reCat [lit "Share", wsP, lit "Tweet", wsP, lit "React", wsS, lit "(", dP, lit ")"],
    reCat [lit "Top ", dP, lit " Comments"],
    reCat [dP, lit " comment", reOpt (lit "s"), wsP, lit "Sort by"],
    lit "Comments will close out",
    reCat [lit "Thumbs Up", wsP, lit "Thumbs Down", wsP, lit "by", wsP],
    reCat [lit "Up:", wsS, dP, wsS, lit "Down:", wsS, dP],
    lit "Leave a Comment",
    reCat [lit "Tweets", wsP, RE.starL dotC, lit "http://t.co/"],
    reCat [lit "Tour Dates", wsP],
    reCat [lit "Featured Video", wsP],
    lit "View more Videos",
    reCat [lit "Â©", wsS, RE.cls Char.isDigit, RE.cls Char.isDigit,
           RE.cls Char.isDigit, RE.cls Char.isDigit, wsS, lit "Barstool"],
    reCat [lit "Disclaimer", wsS, lit "|", wsS, lit "Copyright"],
    reCat [lit "Media Kit", wsS, RE.eol],
    reCat [lit "Barstool Sports", wsS, lit "|", wsS, lit "Disclaimer"] ]

/-- The `for pattern in cut_patterns: ... break` loop: truncate before the
leftmost match of the first pattern (in list order) that matches, then
`rstrip`; later patterns are not scanned. -/
def cutLoop : List RE → List Char → List Char
  | [], cs => cs
  | r :: rs, cs =>
    match reSearch r cs with
    | some i => rstripC (cs.take i)
    | none => cutLoop rs cs

/-- The trailing-byline regex
`\s*By\s+\w+\s+posted\s+\w+\s+\d+.*$` with `re.IGNORECASE`. -/
def bylineRE : RE :=
  reCat [wsS, ciLit "By", wsP, wP, wsP, ciLit "posted", wsP, wP, wsP, dP,
         RE.starG dotC, RE.eol]

/-- Python `re.sub(bylineRE, empty, text).rstrip()`.  The pattern is anchored by
`.*$`, so a match always extends to the end of the text or to just before
a final newline; after removing the leftmost match nothing further can
match (the remainder is empty or a lone newline), so a single removal is
faithful to `re.sub`. -/
def bylineStep (cs : List Char) : List Char :=
  match reSearch bylineRE cs with
  | some i =>
      rstripC (cs.take i ++ cs.drop (i + (RE.lens bylineRE (cs.drop i)).headD 0))
  | none => rstripC cs

/-- The leading-navigation regex
`(Home\s+The Store\s+BarstoolTV\s+.*?Barstool Sports\s+All Categories\s+)`
with `re.IGNORECASE | re.DOTALL` (so `.` matches newlines). -/
def navRE : RE :=
  reCat [ciLit "Home", wsP, ciLit "The Store", wsP, ciLit "BarstoolTV", wsP,
         RE.starL anyC, ciLit "Barstool Sports", wsP, ciLit "All Categories", wsP]

/-- Python `re.match(navRE, text)`: if the pattern matches at position 0, drop the
matched span (Python's preferred extent) and `lstrip`. -/
def navStep (cs : List Char) : List Char :=
  match RE.lens navRE cs with
  | [] => cs
  | n :: _ => lstripC (cs.drop n)

/-- Body of `clean_body_text` on a nonempty text, as the source's sequence
of steps: cut loop, byline removal, nav removal, final `strip`. -/
def cleanChars (cs : List Char) : List Char :=
  stripC (navStep (bylineStep (cutLoop cut_patterns cs)))

/-- Function `clean_body_text(text)` (src/app.py lines 218-267).  A falsy (empty)
input passes through unchanged. -/
def clean_body_text (s : String) : String :=
  if s = "" then s else ⟨cleanChars s.data⟩

example : clean_body_text "Great game today.\n\nShare Tweet React (12)\nuser1: nice post" =
    "Great game today." := by decide

example : clean_body_text "Leave a Comment xyz Top 3 Comments" = "Leave a Comment xyz" := by
  decide

example : clean_body_text "Leave a Comment xyz" = "" := by decide

example : clean_body_text "Good win. By carrabis posted November 24th, 2014 at 10:00 AM" =
    "Good win." := by decide

/-! ### HTML tree model and `sanitize_html` (src/app.py lines 145-215)

`Doc` models the BeautifulSoup parse result of `body_html` as a forest of
sibling nodes (text, comment, element-with-children), in first-child /
next-sibling form; `sanitize_html` consumes the parsed forest (parsing
itself is external library code). -/

inductive Doc where
  | nil : Doc
  | text : String → Doc → Doc
  | comment : String → Doc → Doc
  | elem : String → List (String × String) → Doc → Doc → Doc
deriving DecidableEq

/-- Forest concatenation (splicing one sibling sequence before another). -/
def docApp : Doc → Doc → Doc
  | .nil, d => d
  | .text s rest, d => .text s (docApp rest d)
  | .comment s rest, d => .comment s (docApp rest d)
  | .elem t a c rest, d => .elem t a c (docApp rest d)

/-- Constant `ALLOWED_TAGS` (src/app.py lines 145-150). -/
def ALLOWED_TAGS : List String :=
  ["p", "br", "b", "i", "em", "strong", "a", "img", "h1", "h2", "h3",
   "h4", "h5", "h6", "ul", "ol", "li", "blockquote", "pre", "code",
   "table", "thead", "tbody", "tr", "td", "th", "hr", "span", "div",
   "figure", "figcaption", "video", "source", "iframe"]

/-- Table `ALLOWED_ATTRS` (src/app.py lines 152-160); tags without an entry keep
no attributes. -/
def ALLOWED_ATTRS (tag : String) : List String :=
  if tag = "a" then ["href", "target", "rel"]
  else if tag = "img" then ["src", "alt", "width", "height"]
  else if tag = "iframe" then ["src", "width", "height", "frameborder", "allowfullscreen"]
  else if tag = "video" then ["src", "controls", "width", "height"]
  else if tag = "source" then ["src", "type"]
  else if tag = "td" then ["colspan", "rowspan"]
  else if tag = "th" then ["colspan", "rowspan"]
  else []

/-- The alternation branches of `JUNK_PATTERN` (src/app.py lines 162-166),
all lowercase and whitespace-free. -/
def JUNK_PATTERN : List String :=
  ["sidebar", "nav", "menu", "footer", "header", "comment", "social", "share",
   "related", "newsletter", "popup", "modal", "overlay", "ad-", "advertisement",
   "cookie", "wm-ipp", "wayback", "toolbar", "donate"]

/-- Tags whose whole subtree is decomposed first (src/app.py lines 177-181). -/
def KILL_TAGS : List String :=
  ["script", "style", "nav", "header", "footer", "noscript", "link", "meta", "head"]

/-- Substring test (the hay is expected already lowercased). -/
def hasSub (n : List Char) : List Char → Bool
  | [] => n.isPrefixOf []
  | c :: t => n.isPrefixOf (c :: t) || hasSub n t

/-- Python `JUNK_PATTERN.search(s)` as a Boolean: the alternation branches are
fixed lowercase literals, so `re.IGNORECASE` search is containment in the
lowercased string. -/
def junkMatch (s : String) : Bool :=
  JUNK_PATTERN.any (fun pat => hasSub pat.data (s.data.map Char.toLower))

/-- Attribute lookup with `''` default, as `tag.get(k, '') or ''`.  The
multi-valued `class` attribute is modelled by its raw string value: the
junk substrings contain no whitespace, so matching the raw value agrees
with matching BeautifulSoup's space-joined token list. -/
def getAttrS (attrs : List (String × String)) (k : String) : String :=
  (attrs.lookup k).getD ""

/-- Junk class/id test from src/app.py lines 184-194. -/
def isJunkTag (attrs : List (String × String)) : Bool :=
  junkMatch (getAttrS attrs "class") || junkMatch (getAttrS attrs "id")

/-- Pass 1: decompose `script`/`style`/`nav`/… subtrees. -/
def killDoc : Doc → Doc
  | .nil => .nil
  | .elem t a c rest =>
      if t ∈ KILL_TAGS then killDoc rest else .elem t a (killDoc c) (killDoc rest)
  | .text s rest => .text s (killDoc rest)
  | .comment s rest => .comment s (killDoc rest)

/-- Pass 2: decompose elements whose class/id matches `JUNK_PATTERN`. -/
def junkDoc : Doc → Doc
  | .nil => .nil
  | .elem t a c rest =>
      if isJunkTag a then junkDoc rest else .elem t a (junkDoc c) (junkDoc rest)
  | .text s rest => .text s (junkDoc rest)
  | .comment s rest => .comment s (junkDoc rest)

/-- Pass 3: extract HTML comment nodes. -/
def stripComments : Doc → Doc
  | .nil => .nil
  | .elem t a c rest => .elem t a (stripComments c) (stripComments rest)
  | .text s rest => .text s (stripComments rest)
  | .comment _ rest => stripComments rest

/-- Pass 4: unwrap disallowed tags, splicing their children in place;
applies at every depth, so no disallowed tag survives. -/
def unwrapDoc : Doc → Doc
  | .nil => .nil
  | .elem t a c rest =>
      if t ∈ ALLOWED_TAGS then .elem t a (unwrapDoc c) (unwrapDoc rest)
      else docApp (unwrapDoc c) (unwrapDoc rest)
  | .text s rest => .text s (unwrapDoc rest)
  | .comment s rest => .comment s (unwrapDoc rest)

/-- Pass 5: drop attributes not in the tag's allow-list. -/
def stripAttrsDoc : Doc → Doc
  | .nil => .nil
  | .elem t a c rest =>
      .elem t (a.filter (fun p => p.1 ∈ ALLOWED_ATTRS t)) (stripAttrsDoc c)
        (stripAttrsDoc rest)
  | .text s rest => .text s (stripAttrsDoc rest)
  | .comment s rest => .comment s (stripAttrsDoc rest)

/-- The five sanitization passes of `sanitize_html`, in source order. -/
def sanitizeDoc (d : Doc) : Doc :=
  stripAttrsDoc (unwrapDoc (stripComments (junkDoc (killDoc d))))

/-- Void (empty-element) tags, serialised as `<tag/>` by BeautifulSoup. -/
def VOID_TAGS : List String :=
  ["area", "base", "br", "col", "embed", "hr", "img", "input", "keygen",
   "link", "menuitem", "meta", "param", "source", "track", "wbr"]

/-- Minimal entity escaping for serialised text nodes. -/
def escTextC (l : List Char) : List Char :=
  l.flatMap (fun c =>
    if c = '&' then "&amp;".data
    else if c = '<' then "&lt;".data
    else if c = '>' then "&gt;".data
    else [c])

/-- Minimal entity escaping for serialised attribute values. -/
def escAttrC (l : List Char) : List Char :=
  l.flatMap (fun c =>
    if c = '&' then "&amp;".data
    else if c = '<' then "&lt;".data
    else if c = '>' then "&gt;".data
    else if c = '"' then "&quot;".data
    else [c])

def insertAttr (p : String × String) : List (String × String) → List (String × String)
  | [] => [p]
  | q :: qs => if p.1 ≤ q.1 then p :: q :: qs else q :: insertAttr p qs

/-- BeautifulSoup serialises attributes sorted by name. -/
def sortAttrs : List (String × String) → List (String × String)
  | [] => []
  | p :: ps => insertAttr p (sortAttrs ps)

def renderAttrs (attrs : List (String × String)) : List Char :=
  (sortAttrs attrs).flatMap (fun p =>
    ' ' :: p.1.data ++ '=' :: '"' :: escAttrC p.2.data ++ ['"'])

/-- The `str(soup)` serialisation of the forest. -/
def renderChars : Doc → List Char
  | .nil => []
  | .text s rest => escTextC s.data ++ renderChars rest
  | .comment s rest => "<!--".data ++ s.data ++ "-->".data ++ renderChars rest
  | .elem t a c rest =>
      if t ∈ VOID_TAGS then
        '<' :: t.data ++ renderAttrs a ++ "/>".data ++ renderChars rest
      else
        '<' :: t.data ++ renderAttrs a ++ '>' :: renderChars c ++
          "</".data ++ t.data ++ '>' :: renderChars rest

def renderDoc (d : Doc) : String := ⟨renderChars d⟩

/-- Function `sanitize_html(raw_html)` (src/app.py lines 169-215) on the parsed
forest: run the five passes, serialise, strip, and apply the 50-character
noise threshold.  (The `if not raw_html` guard returns `""`, which
coincides with sanitising the empty forest; the `try/except` around the
caller is modelled by totality.) -/
def sanitize_html (d : Doc) : String :=
  let result : String := ⟨stripC (renderChars (sanitizeDoc d))⟩
  if result.length > 50 then result else ""

/-! ### `get_display_html` (src/app.py lines 270-296) -/

/-- A post record; fields may be SQL NULL (`none`). -/
structure Post where
  body_html : Option String
  body_text : Option String
  era : Option String

/-- Python `post.get("body_text") or "No content available."` (falsy
coalescing: both `None` and `""` give the default). -/
def coalesceText (bt : Option String) : String :=
  match bt with
  | none => "No content available."
  | some s => if s = "" then "No content available." else s

/-- Leftmost occurrence index of `sep` in a char list. -/
def firstOccur (sep : List Char) : List Char → Option Nat
  | [] => if sep.isPrefixOf ([] : List Char) then some 0 else none
  | c :: tl =>
      if sep.isPrefixOf (c :: tl) then some 0
      else (firstOccur sep tl).map (· + 1)

/-- Python `str.split(sep)` for a nonempty separator (fuelled; the fuel
`length + 1` always suffices). -/
def pySplitGo (sep : List Char) : Nat → List Char → List (List Char)
  | 0, cs => [cs]
  | fuel + 1, cs =>
    match firstOccur sep cs with
    | none => [cs]
    | some i => cs.take i :: pySplitGo sep fuel (cs.drop (i + sep.length))

def pySplit (sep cs : List Char) : List (List Char) :=
  pySplitGo sep (cs.length + 1) cs

/-- Python `html.escape(s)` (with quoting, as the stdlib default). -/
def escapeChar (c : Char) : List Char :=
  if c = '&' then "&amp;".data
  else if c = '<' then "&lt;".data
  else if c = '>' then "&gt;".data
  else if c = '"' then "&quot;".data
  else if c = '\x27' then "&#x27;".data
  else [c]

def pyHtmlEscape (s : String) : String := ⟨s.data.flatMap escapeChar⟩

/-- Python string join with the empty separator. -/
def concatAll : List String → String
  | [] => ""
  | s :: rest => s ++ concatAll rest

/-- Paragraph choice of the text tier (src/app.py lines 293-295): split on
`'\n\n'`; if that yields at most one segment, split on `'\n'` instead. -/
def paragraphsOf (cs : List Char) : List (List Char) :=
  if (pySplit ['\n', '\n'] cs).length ≤ 1 then pySplit ['\n'] cs
  else pySplit ['\n', '\n'] cs

/-- The paragraph rendering of the text tier (src/app.py lines 293-296):
keep segments with nonempty `strip()`, escape the stripped segment, wrap
in `<p>`, concatenate with no separator. -/
def renderParas (s : String) : String :=
  concatAll ((paragraphsOf s.data).filterMap (fun p =>
    if stripC p = [] then none
    else some ("<p>" ++ pyHtmlEscape ⟨stripC p⟩ ++ "</p>")))

/-- The fallback tier of `get_display_html` (src/app.py lines 288-296). -/
def textTier (bt : Option String) : String :=
  renderParas (clean_body_text (coalesceText bt))

/-- Function `get_display_html(post)` (src/app.py lines 270-296).  `doc` is the
parsed forest of `post.body_html` (parsing is external); the sanitizer is
total here, so the `except` branch is dead. -/
def get_display_html (post : Post) (doc : Doc) : String :=
  if post.era.getD "" = "nextjs_v2" ∧ post.body_html.getD "" ≠ "" then
    post.body_html.getD ""
  else if post.body_html.getD "" ≠ "" ∧ sanitize_html doc ≠ "" then
    sanitize_html doc
  else textTier post.body_text

example : pySplit ['\n', '\n'] "One\n\nTwo".data = ["One".data, "Two".data] := by decide

example : textTier (some "One\n\nTwo") = "<p>One</p><p>Two</p>" := by decide

example : textTier (some "One\nTwo\nThree") = "<p>One</p><p>Two</p><p>Three</p>" := by decide

example : textTier none = "<p>No content available.</p>" := by decide

example : sanitize_html (.elem "div" [("class", "ad-banner")] .nil .nil) = "" := by decide

example : textTier (some "   ") = "" := by decide

/-! ### Strip lemmas -/

theorem dropWhile_idem (p : Char → Bool) (l : List Char) :
    (l.dropWhile p).dropWhile p = l.dropWhile p := by
  induction l with
  | nil => rfl
  | cons c t ih =>
    by_cases h : p c
    · simp [List.dropWhile_cons, h, ih]
    · simp [List.dropWhile_cons, h]

theorem lstrip_idem (l : List Char) : lstripC (lstripC l) = lstripC l :=
  dropWhile_idem _ _

theorem rstrip_idem (l : List Char) : rstripC (rstripC l) = rstripC l := by
  unfold rstripC
  rw [List.reverse_reverse, dropWhile_idem]

theorem rstrip_cons (c : Char) (t : List Char) :
    rstripC (c :: t) =
      if rstripC t = [] then (if isPySpace c then [] else [c])
      else c :: rstripC t := by
  unfold rstripC
  rw [List.reverse_cons, List.dropWhile_append]
  by_cases h : List.dropWhile isPySpace t.reverse = []
  · simp only [h, List.isEmpty_nil, if_true, List.dropWhile_cons, List.dropWhile_nil,
      rstripC, List.reverse_eq_nil_iff]
    split <;> rfl
  · simp [h]

theorem strip_comm (x : List Char) : rstripC (lstripC x) = lstripC (rstripC x) := by
  induction x with
  | nil => rfl
  | cons c t ih =>
    by_cases h : isPySpace c
    · rw [lstripC, List.dropWhile_cons, if_pos h]
      rw [show List.dropWhile isPySpace t = lstripC t from rfl, ih, rstrip_cons]
      by_cases h2 : rstripC t = []
      · simp [h2, h, lstripC]
      · simp [h2, h, lstripC, List.dropWhile_cons]
    · rw [lstripC, List.dropWhile_cons, if_neg h]
      rw [show (c :: t : List Char) = c :: t from rfl, rstrip_cons]
      by_cases h2 : rstripC t = []
      · simp [h2, h, lstripC, List.dropWhile_cons]
      · simp [h2, h, lstripC, List.dropWhile_cons]

theorem strip_idem (x : List Char) : stripC (stripC x) = stripC x := by
  unfold stripC
  rw [strip_comm (rstripC x), rstrip_idem, lstrip_idem]

theorem rstrip_strip (x : List Char) : rstripC (stripC x) = stripC x := by
  unfold stripC
  rw [strip_comm (rstripC x), rstrip_idem]

theorem strip_rstrip (x : List Char) : stripC (rstripC x) = stripC x := by
  unfold stripC
  rw [rstrip_idem]

theorem dropWhile_append_allP {p : Char → Bool} {a : List Char} (b : List Char)
    (h : ∀ c ∈ a, p c) : List.dropWhile p (a ++ b) = List.dropWhile p b := by
  induction a with
  | nil => rfl
  | cons c t ih =>
    rw [List.cons_append, List.dropWhile_cons, if_pos (h c (by simp))]
    exact ih (fun x hx => h x (by simp [hx]))

theorem rstrip_append_allws {t : List Char} (l : List Char)
    (h : ∀ c ∈ t, isPySpace c) : rstripC (l ++ t) = rstripC l := by
  unfold rstripC
  rw [List.reverse_append, dropWhile_append_allP _ (fun c hc => h c (by simpa using hc))]

theorem mem_of_stripC_eq_nil {p : List Char} (h : stripC p = []) :
    ∀ c ∈ p, isPySpace c := by
  intro c hc
  have h1 : List.dropWhile isPySpace (rstripC p) = [] := h
  have h2 : ∀ x ∈ rstripC p, isPySpace x := List.dropWhile_eq_nil_iff.mp h1
  have hrev : c ∈ p.reverse := by simpa using hc
  rw [← List.takeWhile_append_dropWhile (p := isPySpace) (l := p.reverse)] at hrev
  rcases List.mem_append.mp hrev with h3 | h3
  · exact List.mem_takeWhile_imp h3
  · exact h2 c (by rw [rstripC]; simpa using List.mem_reverse.mpr h3)

theorem stripC_eq_nil_iff (p : List Char) : stripC p = [] ↔ ∀ c ∈ p, isPySpace c := by
  constructor
  · exact mem_of_stripC_eq_nil
  · intro h
    have h1 : rstripC p = [] := by
      unfold rstripC
      rw [List.dropWhile_eq_nil_iff.mpr (fun x hx => h x (by simpa using hx))]
      rfl
    rw [stripC, h1]
    rfl

/-! ### Search and pattern-shape lemmas -/

theorem reSearchFrom_some {r : RE} :
    ∀ (cs : List Char) (j i : Nat), reSearchFrom r cs j = some i →
      ∃ m, i = j + m ∧ RE.lens r (cs.drop m) ≠ [] := by
  intro cs
  induction cs with
  | nil =>
    intro j i h
    rw [reSearchFrom] at h
    by_cases he : (RE.lens r []).isEmpty
    · simp [he] at h
    · rw [if_neg (by simpa using he)] at h
      have hji : j = i := by injection h
      exact ⟨0, by omega, by simpa using List.isEmpty_eq_false.mp (by simpa using he)⟩
  | cons c tl ih =>
    intro j i h
    rw [reSearchFrom] at h
    by_cases he : (RE.lens r (c :: tl)).isEmpty
    · rw [if_pos (by simpa using he)] at h
      obtain ⟨m, hm, hne⟩ := ih (j + 1) i h
      exact ⟨m + 1, by omega, by simpa using hne⟩
    · rw [if_neg (by simpa using he)] at h
      have hji : j = i := by injection h
      refine ⟨0, by omega, ?_⟩
      simpa using List.isEmpty_eq_false.mp (by simpa using he)

theorem reSearch_some {r : RE} {cs : List Char} {i : Nat}
    (h : reSearch r cs = some i) : RE.lens r (cs.drop i) ≠ [] := by
  obtain ⟨m, hm, hne⟩ := reSearchFrom_some cs 0 i h
  simpa [show m = i by omega] using hne

/-- Syntactic check that a pattern ends in the `$` anchor. -/
def tailEolB : RE → Bool
  | .eol => true
  | .seq _ b => tailEolB b
  | _ => false

theorem tailEol_drop {r : RE} (hr : tailEolB r = true) :
    ∀ (cs : List Char) (n : Nat), n ∈ RE.lens r cs →
      cs.drop n = [] ∨ cs.drop n = ['\n'] := by
  induction r with
  | eol =>
    intro cs n hn
    rw [RE.lens] at hn
    by_cases h : cs = [] ∨ cs = ['\n']
    · rw [if_pos h] at hn
      have : n = 0 := by simpa using hn
      subst this
      simpa using h
    · rw [if_neg h] at hn
      simp at hn
  | seq a b iha ihb =>
    intro cs n hn
    rw [RE.lens] at hn
    obtain ⟨na, _, hmem⟩ := List.mem_flatMap.mp hn
    obtain ⟨nb, hnb, rfl⟩ := List.mem_map.mp hmem
    have := ihb (by simpa [tailEolB] using hr) (cs.drop na) nb hnb
    rw [List.drop_drop] at this
    simpa [Nat.add_comm] using this
  | lit s => simp [tailEolB] at hr
  | cls p => simp [tailEolB] at hr
  | starG p => simp [tailEolB] at hr
  | starL p => simp [tailEolB] at hr
  | plusG p => simp [tailEolB] at hr
  | alt a b iha ihb => simp [tailEolB] at hr

theorem tailEol_byline : tailEolB bylineRE = true := by rfl

theorem mk_data (s : String) : (⟨s.data⟩ : String) = s := by cases s; rfl

/-! ### Claims about `clean_body_text` -/

theorem cutLoop_eq_findSome (rs : List RE) (cs : List Char) :
    cutLoop rs cs =
      Option.elim (rs.findSome? (fun r => reSearch r cs)) cs
        (fun i => rstripC (cs.take i)) := by
  induction rs with
  | nil => rfl
  | cons r rs ih =>
    cases h : reSearch r cs with
    | some i => simp [cutLoop, List.findSome?_cons, h]
    | none =>
      simp only [cutLoop, List.findSome?_cons, h]
      exact ih

/-- Claim C2: `clean_body_text` iterates the fixed list of article-end
patterns in order and truncates just before the leftmost match of the
first pattern (in list order) that matches anywhere, trims trailing
whitespace, and stops scanning the remaining patterns; on the spec's
example text the result is `"Great game today."`. -/
theorem claim_c2 :
    (∀ cs : List Char, cutLoop cut_patterns cs =
      Option.elim (cut_patterns.findSome? (fun r => reSearch r cs)) cs
        (fun i => rstripC (cs.take i)))
    ∧ clean_body_text "Great game today.\n\nShare Tweet React (12)\nuser1: nice post" =
        "Great game today." :=
  ⟨fun cs => cutLoop_eq_findSome cut_patterns cs, by decide⟩

theorem cutLoop_sub (rs : List RE) (cs : List Char) : Sub (cutLoop rs cs) cs := by
  induction rs with
  | nil => exact sub_refl cs
  | cons r rs ih =>
    cases h : reSearch r cs with
    | some i =>
      simp only [cutLoop, h]
      exact sub_trans (sub_rstrip _) (sub_take i cs)
    | none => simpa only [cutLoop, h] using ih

theorem bylineStep_sub (cs : List Char) : Sub (bylineStep cs) cs := by
  unfold bylineStep
  cases h : reSearch bylineRE cs with
  | none => exact sub_rstrip cs
  | some i =>
    have hne := reSearch_some h
    have hmem : (RE.lens bylineRE (cs.drop i)).headD 0 ∈ RE.lens bylineRE (cs.drop i) := by
      cases hL : RE.lens bylineRE (cs.drop i) with
      | nil => exact absurd hL hne
      | cons a l => simp [hL]
    have htail := tailEol_drop tailEol_byline (cs.drop i) _ hmem
    have e : cs.drop (i + (RE.lens bylineRE (cs.drop i)).headD 0) =
        (cs.drop i).drop ((RE.lens bylineRE (cs.drop i)).headD 0) := by
      rw [List.drop_drop, Nat.add_comm]
    have hall : ∀ c ∈ cs.drop (i + (RE.lens bylineRE (cs.drop i)).headD 0), isPySpace c := by
      rw [e]
      rcases htail with ht | ht <;> rw [ht] <;> intro c hc <;> simp at hc
      subst hc; rfl
    show Sub (rstripC (cs.take i ++
      cs.drop (i + (RE.lens bylineRE (cs.drop i)).headD 0))) cs
    rw [rstrip_append_allws _ hall]
    exact sub_trans (sub_rstrip _) (sub_take i cs)

theorem navStep_sub (cs : List Char) : Sub (navStep cs) cs := by
  unfold navStep
  cases h : RE.lens navRE cs with
  | nil => exact sub_refl cs
  | cons n l => exact sub_trans (sub_lstrip _) (sub_drop n cs)

/-- Claim C10: `clean_body_text` only ever deletes characters from the
ends of the text, so its output is a contiguous substring of its input
and the output length never exceeds the input length. -/
theorem claim_c10 (t : String) :
    Sub (clean_body_text t).data t.data ∧ (clean_body_text t).length ≤ t.length := by
  have hs : Sub (clean_body_text t).data t.data := by
    by_cases h : t = ""
    · subst h
      rw [show clean_body_text "" = "" from by decide]
      exact sub_refl _
    · rw [clean_body_text, if_neg h]
      show Sub (cleanChars t.data) t.data
      unfold cleanChars
      exact sub_trans (sub_strip _)
        (sub_trans (navStep_sub _) (sub_trans (bylineStep_sub _) (cutLoop_sub _ _)))
  exact ⟨hs, sub_length_le hs⟩

/-- Claim C5 (counterexample): `clean_body_text` is not idempotent.  On
`"Leave a Comment xyz Top 3 Comments"` the first pass cuts at the
higher-priority `Top \d+ Comments` match, leaving `"Leave a Comment xyz"`,
and a second pass then cuts at the surviving lower-priority
`Leave a Comment` match, leaving `""`. -/
theorem claim_c5_counterexample :
    clean_body_text (clean_body_text "Leave a Comment xyz Top 3 Comments") ≠
      clean_body_text "Leave a Comment xyz Top 3 Comments" := by decide

theorem clean_data_strip (t : String) :
    stripC (clean_body_text t).data = (clean_body_text t).data := by
  by_cases h : t = ""
  · subst h; decide
  · rw [clean_body_text, if_neg h]
    show stripC (cleanChars t.data) = cleanChars t.data
    unfold cleanChars
    exact strip_idem _

theorem clean_data_rstrip (t : String) :
    rstripC (clean_body_text t).data = (clean_body_text t).data := by
  by_cases h : t = ""
  · subst h; decide
  · rw [clean_body_text, if_neg h]
    show rstripC (cleanChars t.data) = cleanChars t.data
    unfold cleanChars
    exact rstrip_strip _

/-- Claim C5 (amended): `clean_body_text` is not idempotent in general — a
second application can truncate further when a pattern occurrence survives
the first cut (see the counterexample) — but reapplying it is a no-op on
every text whose cleaned form matches no article-end pattern, no trailing
byline and no leading navigation prefix. -/
theorem claim_c5_amended (t : String)
    (hcut : cut_patterns.findSome?
      (fun r => reSearch r (clean_body_text t).data) = none)
    (hby : reSearch bylineRE (clean_body_text t).data = none)
    (hnav : RE.lens navRE (clean_body_text t).data = []) :
    clean_body_text (clean_body_text t) = clean_body_text t := by
  have e1 : cutLoop cut_patterns (clean_body_text t).data = (clean_body_text t).data := by
    rw [cutLoop_eq_findSome, hcut]
    rfl
  have e2 : bylineStep (clean_body_text t).data = (clean_body_text t).data := by
    unfold bylineStep
    rw [hby]
    exact clean_data_rstrip t
  have e3 : navStep (clean_body_text t).data = (clean_body_text t).data := by
    unfold navStep
    rw [hnav]
  by_cases h : clean_body_text t = ""
  · rw [h]
    decide
  · rw [clean_body_text, if_neg h]
    show (⟨cleanChars (clean_body_text t).data⟩ : String) = clean_body_text t
    unfold cleanChars
    rw [e1, e2, e3, clean_data_strip]

/-- Witness for C5 (amended) at a concrete already-clean text. -/
theorem claim_c5_witness :
    clean_body_text (clean_body_text "Hello world") = clean_body_text "Hello world" :=
  claim_c5_amended "Hello world" (by decide) (by decide) (by decide)

/-! ### Sanitizer invariants (claims C3, C4, C9) -/

/-- Every element's tag is in `ALLOWED_TAGS`. -/
def tagsAllowed : Doc → Bool
  | .nil => true
  | .text _ r => tagsAllowed r
  | .comment _ r => tagsAllowed r
  | .elem t _ c r => decide (t ∈ ALLOWED_TAGS) && tagsAllowed c && tagsAllowed r

/-- Allow-list closure: every element's tag is allowed and every attribute
is in its tag's per-tag allow-list. -/
def allowClosed : Doc → Bool
  | .nil => true
  | .text _ r => allowClosed r
  | .comment _ r => allowClosed r
  | .elem t a c r =>
      decide (t ∈ ALLOWED_TAGS) && a.all (fun p => decide (p.1 ∈ ALLOWED_ATTRS t)) &&
        allowClosed c && allowClosed r

def noComments : Doc → Bool
  | .nil => true
  | .text _ r => noComments r
  | .comment _ _ => false
  | .elem _ _ c r => noComments c && noComments r

/-- The text nodes of a forest, in document order. -/
def textsOf : Doc → List String
  | .nil => []
  | .text s r => s :: textsOf r
  | .comment _ r => textsOf r
  | .elem _ _ c r => textsOf c ++ textsOf r

theorem tagsAllowed_docApp (a b : Doc) :
    tagsAllowed (docApp a b) = (tagsAllowed a && tagsAllowed b) := by
  induction a with
  | nil => simp [docApp, tagsAllowed]
  | text s r ih => simp [docApp, tagsAllowed, ih]
  | comment s r ih => simp [docApp, tagsAllowed, ih]
  | elem t at_ c r ihc ihr => simp [docApp, tagsAllowed, ihr, Bool.and_assoc]

theorem noComments_docApp (a b : Doc) :
    noComments (docApp a b) = (noComments a && noComments b) := by
  induction a with
  | nil => simp [docApp, noComments]
  | text s r ih => simp [docApp, noComments, ih]
  | comment s r ih => simp [docApp, noComments]
  | elem t at_ c r ihc ihr => simp [docApp, noComments, ihr, Bool.and_assoc]

theorem textsOf_docApp (a b : Doc) :
    textsOf (docApp a b) = textsOf a ++ textsOf b := by
  induction a with
  | nil => simp [docApp, textsOf]
  | text s r ih => simp [docApp, textsOf, ih]
  | comment s r ih => simp [docApp, textsOf, ih]
  | elem t at_ c r ihc ihr => simp [docApp, textsOf, ihr]

theorem unwrap_tagsAllowed (d : Doc) : tagsAllowed (unwrapDoc d) = true := by
  induction d with
  | nil => rfl
  | text s r ih => simpa [unwrapDoc, tagsAllowed] using ih
  | comment s r ih => simpa [unwrapDoc, tagsAllowed] using ih
  | elem t a c r ihc ihr =>
    by_cases h : t ∈ ALLOWED_TAGS
    · simp [unwrapDoc, h, tagsAllowed, ihc, ihr]
    · simp [unwrapDoc, h, tagsAllowed_docApp, ihc, ihr]

theorem unwrap_noComments {d : Doc} (h : noComments d = true) :
    noComments (unwrapDoc d) = true := by
  induction d with
  | nil => rfl
  | text s r ih => simp only [unwrapDoc, noComments] at h ⊢; exact ih h
  | comment s r ih => simp [noComments] at h
  | elem t a c r ihc ihr =>
    simp only [noComments, Bool.and_eq_true] at h
    by_cases ht : t ∈ ALLOWED_TAGS
    · simp [unwrapDoc, ht, noComments, ihc h.1, ihr h.2]
    · simp [unwrapDoc, ht, noComments_docApp, ihc h.1, ihr h.2]

theorem stripComments_noComments (d : Doc) : noComments (stripComments d) = true := by
  induction d with
  | nil => rfl
  | text s r ih => simpa [stripComments, noComments] using ih
  | comment s r ih => simpa [stripComments] using ih
  | elem t a c r ihc ihr => simp [stripComments, noComments, ihc, ihr]

theorem stripComments_tagsAllowed {d : Doc} (h : tagsAllowed d = true) :
    tagsAllowed (stripComments d) = true := by
  induction d with
  | nil => rfl
  | text s r ih => simp only [stripComments, tagsAllowed] at h ⊢; exact ih h
  | comment s r ih => simp only [stripComments, tagsAllowed] at h ⊢; exact ih h
  | elem t a c r ihc ihr =>
    simp only [stripComments, tagsAllowed, Bool.and_eq_true] at h ⊢
    exact ⟨⟨h.1.1, ihc h.1.2⟩, ihr h.2⟩

theorem stripAttrs_allowClosed {d : Doc} (h : tagsAllowed d = true) :
    allowClosed (stripAttrsDoc d) = true := by
  induction d with
  | nil => rfl
  | text s r ih => simp only [stripAttrsDoc, tagsAllowed, allowClosed] at h ⊢; exact ih h
  | comment s r ih => simp only [stripAttrsDoc, tagsAllowed, allowClosed] at h ⊢; exact ih h
  | elem t a c r ihc ihr =>
    simp only [stripAttrsDoc, tagsAllowed, allowClosed, Bool.and_eq_true] at h ⊢
    refine ⟨⟨⟨h.1.1, ?_⟩, ihc h.1.2⟩, ihr h.2⟩
    exact List.all_eq_true.mpr (fun x hx => (List.mem_filter.mp hx).2)

theorem stripAttrs_noComments {d : Doc} (h : noComments d = true) :
    noComments (stripAttrsDoc d) = true := by
  induction d with
  | nil => rfl
  | text s r ih => simp only [stripAttrsDoc, noComments] at h ⊢; exact ih h
  | comment s r ih => simp [noComments] at h
  | elem t a c r ihc ihr =>
    simp only [stripAttrsDoc, noComments, Bool.and_eq_true] at h ⊢
    exact ⟨ihc h.1, ihr h.2⟩

theorem unwrap_textsOf (d : Doc) : textsOf (unwrapDoc d) = textsOf d := by
  induction d with
  | nil => rfl
  | text s r ih => simp [unwrapDoc, textsOf, ih]
  | comment s r ih => simp [unwrapDoc, textsOf, ih]
  | elem t a c r ihc ihr =>
    by_cases h : t ∈ ALLOWED_TAGS
    · simp [unwrapDoc, h, textsOf, ihc, ihr]
    · simp [unwrapDoc, h, textsOf_docApp, textsOf, ihc, ihr]

theorem sanitizeDoc_allowClosed (d : Doc) : allowClosed (sanitizeDoc d) = true :=
  stripAttrs_allowClosed (unwrap_tagsAllowed _)

theorem sanitizeDoc_noComments (d : Doc) : noComments (sanitizeDoc d) = true :=
  stripAttrs_noComments (unwrap_noComments (stripComments_noComments _))

/-- Claim C3: the sanitized output satisfies allow-list closure (no
disallowed tag, no disallowed attribute survives), and the unwrap pass
preserves the text content of the forest in place. -/
theorem claim_c3 (d : Doc) :
    allowClosed (sanitizeDoc d) = true ∧ textsOf (unwrapDoc d) = textsOf d :=
  ⟨sanitizeDoc_allowClosed d, unwrap_textsOf d⟩

theorem tags_of_allowClosed {d : Doc} (h : allowClosed d = true) :
    tagsAllowed d = true := by
  induction d with
  | nil => rfl
  | text s r ih => simp only [allowClosed, tagsAllowed] at h ⊢; exact ih h
  | comment s r ih => simp only [allowClosed, tagsAllowed] at h ⊢; exact ih h
  | elem t a c r ihc ihr =>
    simp only [allowClosed, tagsAllowed, Bool.and_eq_true] at h ⊢
    exact ⟨⟨h.1.1.1, ihc h.1.2⟩, ihr h.2⟩

theorem allowed_not_kill : ∀ t ∈ ALLOWED_TAGS, t ∉ KILL_TAGS := by decide

theorem kill_id {d : Doc} (h : tagsAllowed d = true) : killDoc d = d := by
  induction d with
  | nil => rfl
  | text s r ih => simp only [killDoc, tagsAllowed] at h ⊢; rw [ih h]
  | comment s r ih => simp only [killDoc, tagsAllowed] at h ⊢; rw [ih h]
  | elem t a c r ihc ihr =>
    simp only [tagsAllowed, Bool.and_eq_true, decide_eq_true_eq] at h
    rw [killDoc, if_neg (allowed_not_kill t h.1.1), ihc h.1.2, ihr h.2]

theorem class_not_allowed (t : String) : "class" ∉ ALLOWED_ATTRS t := by
  unfold ALLOWED_ATTRS
  repeat' split
  all_goals decide

theorem id_not_allowed (t : String) : "id" ∉ ALLOWED_ATTRS t := by
  unfold ALLOWED_ATTRS
  repeat' split
  all_goals decide

theorem lookup_none_of_keys {a : List (String × String)} {t k : String}
    (h : ∀ p ∈ a, p.1 ∈ ALLOWED_ATTRS t) (hk : k ∉ ALLOWED_ATTRS t) :
    a.lookup k = none := by
  induction a with
  | nil => rfl
  | cons p ps ih =>
    rw [List.lookup]
    by_cases he : k = p.1
    · exact absurd (he ▸ h p (by simp)) hk
    · rw [show (k == p.1) = false by simpa using he]
      exact ih (fun q hq => h q (by simp [hq]))

theorem isJunk_false_of_allowed {t : String} {a : List (String × String)}
    (h : ∀ p ∈ a, p.1 ∈ ALLOWED_ATTRS t) : isJunkTag a = false := by
  unfold isJunkTag getAttrS
  rw [lookup_none_of_keys h (class_not_allowed t),
    lookup_none_of_keys h (id_not_allowed t)]
  decide

theorem junk_id {d : Doc} (h : allowClosed d = true) : junkDoc d = d := by
  induction d with
  | nil => rfl
  | text s r ih => simp only [junkDoc, allowClosed] at h ⊢; rw [ih h]
  | comment s r ih => simp only [junkDoc, allowClosed] at h ⊢; rw [ih h]
  | elem t a c r ihc ihr =>
    simp only [allowClosed, Bool.and_eq_true, List.all_eq_true, decide_eq_true_eq] at h
    rw [junkDoc, if_neg (by simp [isJunk_false_of_allowed h.1.1.2]), ihc h.1.2, ihr h.2]

theorem comments_id {d : Doc} (h : noComments d = true) : stripComments d = d := by
  induction d with
  | nil => rfl
  | text s r ih => simp only [stripComments, noComments] at h ⊢; rw [ih h]
  | comment s r ih => simp [noComments] at h
  | elem t a c r ihc ihr =>
    simp only [noComments, Bool.and_eq_true] at h
    rw [stripComments, ihc h.1, ihr h.2]

theorem unwrap_id {d : Doc} (h : tagsAllowed d = true) : unwrapDoc d = d := by
  induction d with
  | nil => rfl
  | text s r ih => simp only [unwrapDoc, tagsAllowed] at h ⊢; rw [ih h]
  | comment s r ih => simp only [unwrapDoc, tagsAllowed] at h ⊢; rw [ih h]
  | elem t a c r ihc ihr =>
    simp only [tagsAllowed, Bool.and_eq_true, decide_eq_true_eq] at h
    rw [unwrapDoc, if_pos h.1.1, ihc h.1.2, ihr h.2]

theorem stripAttrs_id {d : Doc} (h : allowClosed d = true) : stripAttrsDoc d = d := by
  induction d with
  | nil => rfl
  | text s r ih => simp only [stripAttrsDoc, allowClosed] at h ⊢; rw [ih h]
  | comment s r ih => simp only [stripAttrsDoc, allowClosed] at h ⊢; rw [ih h]
  | elem t a c r ihc ihr =>
    simp only [allowClosed, Bool.and_eq_true, List.all_eq_true, decide_eq_true_eq] at h
    rw [stripAttrsDoc, List.filter_eq_self.mpr (fun p hp => by simpa using h.1.1.2 p hp),
      ihc h.1.2, ihr h.2]

theorem sanitizeDoc_idem (d : Doc) : sanitizeDoc (sanitizeDoc d) = sanitizeDoc d := by
  have hA := sanitizeDoc_allowClosed d
  have hN := sanitizeDoc_noComments d
  have hT := tags_of_allowClosed hA
  conv_lhs => rw [sanitizeDoc, kill_id hT, junk_id hA, comments_id hN, unwrap_id hT,
    stripAttrs_id hA]

/-- Claim C4: the sanitizer is idempotent — the five passes fix their own
output, and re-sanitizing the parse of already-sanitized markup (modelled
by the sanitized forest) yields the same string. -/
theorem claim_c4 (d : Doc) :
    sanitizeDoc (sanitizeDoc d) = sanitizeDoc d ∧
      sanitize_html (sanitizeDoc d) = sanitize_html d := by
  have h := sanitizeDoc_idem d
  exact ⟨h, by unfold sanitize_html; rw [h]⟩

/-- Claim C9: `sanitize_html` returns the empty string exactly when the
whitespace-trimmed serialisation of the sanitized tree has length at most
50 characters, and that serialisation otherwise. -/
theorem claim_c9 (d : Doc) :
    sanitize_html d =
      if (stripC (renderChars (sanitizeDoc d))).length ≤ 50 then ""
      else (⟨stripC (renderChars (sanitizeDoc d))⟩ : String) := by
  show (if (⟨stripC (renderChars (sanitizeDoc d))⟩ : String).length > 50
      then (⟨stripC (renderChars (sanitizeDoc d))⟩ : String) else "") = _
  have hl : (⟨stripC (renderChars (sanitizeDoc d))⟩ : String).length =
      (stripC (renderChars (sanitizeDoc d))).length := rfl
  by_cases h : (stripC (renderChars (sanitizeDoc d))).length ≤ 50
  · rw [if_neg (by rw [hl]; omega), if_pos h]
  · rw [if_pos (by rw [hl]; omega), if_neg h]

/-! ### Claims about `get_display_html` (C1, C6, C7, C8) -/

theorem firstOccur_decomp {sep : List Char} :
    ∀ {cs : List Char} {i : Nat}, firstOccur sep cs = some i →
      cs = cs.take i ++ sep ++ cs.drop (i + sep.length) := by
  intro cs
  induction cs with
  | nil =>
    intro i h
    rw [firstOccur] at h
    by_cases hp : sep.isPrefixOf ([] : List Char)
    · rw [if_pos hp] at h
      have hi : i = 0 := by injection h; omega
      have hsep : sep = [] := List.prefix_nil.mp ( List.isPrefixOf_iff_prefix.mp hp)
      subst hi; subst hsep; rfl
    · rw [if_neg hp] at h
      exact absurd h (by simp)
  | cons c tl ih =>
    intro i h
    rw [firstOccur] at h
    by_cases hp : sep.isPrefixOf (c :: tl)
    · rw [if_pos hp] at h
      have hi : i = 0 := by injection h; omega
      subst hi
      obtain ⟨rest, hrest⟩ := List.isPrefixOf_iff_prefix.mp hp
      simp only [List.take_zero, List.nil_append, Nat.zero_add]
      rw [← hrest, List.drop_left]
    · rw [if_neg hp] at h
      obtain ⟨i', hi', rfl⟩ := Option.map_eq_some'.mp h
      have hd := ih hi'
      calc c :: tl = c :: (tl.take i' ++ sep ++ tl.drop (i' + sep.length)) := by rw [← hd]
        _ = (c :: tl).take (i' + 1) ++ sep ++ (c :: tl).drop (i' + 1 + sep.length) := by
            rw [List.take_succ_cons]
            rw [show i' + 1 + sep.length = (i' + sep.length) + 1 by omega, List.drop_succ_cons]
            simp

theorem pySplitGo_cover (sep : List Char) :
    ∀ (fuel : Nat) (cs : List Char) (c : Char), c ∈ cs →
      c ∈ sep ∨ ∃ seg ∈ pySplitGo sep fuel cs, c ∈ seg := by
  intro fuel
  induction fuel with
  | zero => intro cs c hc; exact Or.inr ⟨cs, by rw [pySplitGo]; simp, hc⟩
  | succ fuel ih =>
    intro cs c hc
    cases hf : firstOccur sep cs with
    | none =>
      refine Or.inr ⟨cs, ?_, hc⟩
      rw [pySplitGo, hf]
      simp
    | some i =>
      have hgo : pySplitGo sep (fuel + 1) cs =
          cs.take i :: pySplitGo sep fuel (cs.drop (i + sep.length)) := by
        rw [pySplitGo, hf]
      have hd := firstOccur_decomp hf
      rw [hd] at hc
      rcases List.mem_append.mp hc with hc1 | hc2
      · rcases List.mem_append.mp hc1 with hc3 | hc4
        · exact Or.inr ⟨cs.take i, by rw [hgo]; simp, hc3⟩
        · exact Or.inl hc4
      · rcases ih (cs.drop (i + sep.length)) c hc2 with h1 | ⟨seg, hseg, hcs⟩
        · exact Or.inl h1
        · exact Or.inr ⟨seg, by rw [hgo]; simp [hseg], hcs⟩

theorem str_append_eq_empty {a b : String} (h : a ++ b = "") : a = "" ∧ b = "" := by
  cases a with
  | mk x =>
    cases b with
    | mk y =>
      have hxy : x ++ y = [] := by
        have : (String.mk x ++ String.mk y).data = [] := congrArg String.data h
        simpa [String.append] using this
      rcases List.append_eq_nil.mp hxy with ⟨hx, hy⟩
      subst hx; subst hy
      exact ⟨rfl, rfl⟩

theorem concatAll_mem_empty {l : List String} (h : concatAll l = "") :
    ∀ s ∈ l, s = "" := by
  induction l with
  | nil => intro s hs; simp at hs
  | cons a rest ih =>
    rw [concatAll] at h
    obtain ⟨ha, hrest⟩ := str_append_eq_empty h
    intro s hs
    rcases List.mem_cons.mp hs with rfl | hs2
    · exact ha
    · exact ih hrest s hs2

theorem wrapped_ne_empty (e : String) : ("<p>" ++ e ++ "</p>" : String) ≠ "" := by
  intro h
  have := (str_append_eq_empty h).1
  have := (str_append_eq_empty this).1
  simp at this

theorem paragraphsOf_cover {cs : List Char} {c : Char} (hc : c ∈ cs) :
    c = '\n' ∨ ∃ seg ∈ paragraphsOf cs, c ∈ seg := by
  unfold paragraphsOf
  by_cases h : (pySplit ['\n', '\n'] cs).length ≤ 1
  · rw [if_pos h]
    rcases pySplitGo_cover ['\n'] (cs.length + 1) cs c hc with h1 | h2
    · exact Or.inl (by simpa using h1)
    · exact Or.inr h2
  · rw [if_neg h]
    rcases pySplitGo_cover ['\n', '\n'] (cs.length + 1) cs c hc with h1 | h2
    · refine Or.inl ?_
      rcases List.mem_cons.mp h1 with h3 | h3
      · exact h3
      · simpa using h3
    · exact Or.inr h2

theorem renderParas_empty {s : String} (h : renderParas s = "") :
    ∀ c ∈ s.data, isPySpace c := by
  have hsegs : ∀ seg ∈ paragraphsOf s.data, stripC seg = [] := by
    intro seg hseg
    by_contra hne
    have hmem : ("<p>" ++ pyHtmlEscape ⟨stripC seg⟩ ++ "</p>" : String) ∈
        (paragraphsOf s.data).filterMap (fun p =>
          if stripC p = [] then none
          else some ("<p>" ++ pyHtmlEscape ⟨stripC p⟩ ++ "</p>")) :=
      List.mem_filterMap.mpr ⟨seg, hseg, by rw [if_neg hne]⟩
    exact wrapped_ne_empty _ (concatAll_mem_empty h _ hmem)
  intro c hc
  rcases paragraphsOf_cover hc with rfl | ⟨seg, hseg, hcs⟩
  · rfl
  · exact mem_of_stripC_eq_nil (hsegs seg hseg) c hcs

/-- Claim C1 (counterexample): `get_display_html` can return the empty
string — a record with no usable HTML and a whitespace-only `body_text`
(present, hence not replaced by the default) renders no paragraph at all. -/
theorem claim_c1_counterexample :
    get_display_html ⟨none, some "   ", none⟩ .nil = "" := by decide

/-- Claim C1 (amended): `get_display_html` returns a non-empty markup
string except when every tier fails and the cleaned `body_text` consists
entirely of whitespace (equivalently: an empty result forces the cleaned
coalesced text to be all-whitespace); in particular, when both `body_html`
and `body_text` are absent it returns `"<p>No content available.</p>"`. -/
theorem claim_c1_amended (post : Post) (doc : Doc) :
    (get_display_html post doc = "" →
      ∀ c ∈ (clean_body_text (coalesceText post.body_text)).data, isPySpace c)
    ∧ get_display_html ⟨none, none, none⟩ doc = "<p>No content available.</p>" := by
  constructor
  · intro h
    unfold get_display_html at h
    by_cases h1 : post.era.getD "" = "nextjs_v2" ∧ post.body_html.getD "" ≠ ""
    · rw [if_pos h1] at h
      exact absurd h h1.2
    · rw [if_neg h1] at h
      by_cases h2 : post.body_html.getD "" ≠ "" ∧ sanitize_html doc ≠ ""
      · rw [if_pos h2] at h
        exact absurd h h2.2
      · rw [if_neg h2] at h
        exact renderParas_empty h
  · unfold get_display_html
    rw [if_neg (fun hh => absurd hh.1 (by decide)), if_neg (fun hh => hh.1 rfl)]
    decide

/-- Witness for C1 (amended): the implication applied at the whitespace
record, and the no-content default at the all-absent record. -/
theorem claim_c1_witness :
    (∀ c ∈ (clean_body_text (coalesceText (some "   "))).data, isPySpace c)
    ∧ get_display_html ⟨none, none, none⟩ .nil = "<p>No content available.</p>" :=
  ⟨(claim_c1_amended ⟨none, some "   ", none⟩ .nil).1 (by decide),
   (claim_c1_amended ⟨none, some "   ", none⟩ .nil).2⟩

/-- Claim C6: on a record of the pre-clean era `"nextjs_v2"` with
non-empty `body_html`, `get_display_html` returns `body_html` verbatim,
with no sanitization applied. -/
theorem claim_c6 (post : Post) (doc : Doc)
    (h1 : post.era.getD "" = "nextjs_v2") (h2 : post.body_html.getD "" ≠ "") :
    get_display_html post doc = post.body_html.getD "" := by
  unfold get_display_html
  rw [if_pos ⟨h1, h2⟩]

/-- Witness for C6: the spec's `"<p>Hello</p>"` example. -/
theorem claim_c6_witness :
    get_display_html ⟨some "<p>Hello</p>", none, some "nextjs_v2"⟩ .nil =
      "<p>Hello</p>" :=
  claim_c6 ⟨some "<p>Hello</p>", none, some "nextjs_v2"⟩ .nil (by decide) (by decide)

/-- Claim C7: on a non-pre-clean record whose `body_html` sanitizes to
empty, `get_display_html` falls through to the escaped-paragraph rendering
of `body_text`. -/
theorem claim_c7 (post : Post) (doc : Doc)
    (h1 : post.era.getD "" ≠ "nextjs_v2") (h2 : sanitize_html doc = "") :
    get_display_html post doc = textTier post.body_text := by
  unfold get_display_html
  rw [if_neg (fun hh => h1 hh.1), if_neg (fun hh => hh.2 h2)]

/-- Witness for C7: the spec's ad-banner example (`body_html` parses to a
single junk-classed `div`, which sanitizes to empty). -/
theorem claim_c7_witness :
    get_display_html
      ⟨some "<div class=\x27ad-banner\x27></div>",
       some "Real article content here.", some "wordpress"⟩
      (.elem "div" [("class", "ad-banner")] .nil .nil) =
      "<p>Real article content here.</p>" :=
  Eq.trans
    (claim_c7 ⟨some "<div class=\x27ad-banner\x27></div>",
        some "Real article content here.", some "wordpress"⟩
      (.elem "div" [("class", "ad-banner")] .nil .nil) (by decide) (by decide))
    (by decide)

/-- Stated from the claim's words (C8), for comparison with the code: drop
whitespace-only segments, escape each remaining segment as-is (with no
per-segment trimming), wrap and concatenate. -/
def renderParasClaimC8 (s : String) : String :=
  concatAll (((paragraphsOf s.data).filter (fun p => p.any (fun c => !(isPySpace c)))).map
    (fun p => "<p>" ++ pyHtmlEscape ⟨p⟩ ++ "</p>"))

/-- Claim C8 (counterexample): the code escapes the *stripped* segment,
not the segment itself, so on a segment with trailing whitespace the
claimed rendering differs from the code's. -/
theorem claim_c8_counterexample :
    get_display_html ⟨none, some "x \n\ny", none⟩ .nil ≠
      renderParasClaimC8 (clean_body_text "x \n\ny") := by decide

/-- The claim's rendering amended with per-segment trimming. -/
def renderParasTrimmed (s : String) : String :=
  concatAll (((paragraphsOf s.data).filter (fun p => p.any (fun c => !(isPySpace c)))).map
    (fun p => "<p>" ++ pyHtmlEscape ⟨stripC p⟩ ++ "</p>"))

theorem stripC_nil_iff_any (p : List Char) :
    stripC p = [] ↔ (p.any (fun c => !(isPySpace c))) = false := by
  rw [stripC_eq_nil_iff, List.any_eq_false]
  constructor
  · intro h c hc
    simp [h c hc]
  · intro h c hc
    simpa using h c hc

theorem filterMap_filter_map (f : List Char → String) (l : List (List Char)) :
    l.filterMap (fun p => if stripC p = [] then none else some (f p)) =
      (l.filter (fun p => p.any (fun c => !(isPySpace c)))).map f := by
  induction l with
  | nil => rfl
  | cons p ps ih =>
    by_cases h : stripC p = []
    · have ha := (stripC_nil_iff_any p).mp h
      simp [List.filterMap_cons, List.filter_cons, h, ha, ih]
    · have ha : (p.any (fun c => !(isPySpace c))) = true := by
        cases hx : p.any (fun c => !(isPySpace c)) with
        | true => rfl
        | false => exact absurd ((stripC_nil_iff_any p).mpr hx) h
      simp [List.filterMap_cons, List.filter_cons, h, ha, ih]

/-- Claim C8 (amended): the text tier splits on the blank-line delimiter,
falls back to single newlines when that yields at most one segment, drops
whitespace-only segments, and renders each kept segment *trimmed*, escaped
and wrapped in `<p>`, concatenated in order; two blank-line-separated
paragraphs yield exactly two `<p>` elements and newline-separated lines
fall back to one `<p>` per line. -/
theorem claim_c8_amended :
    (∀ s : String, renderParas s = renderParasTrimmed s)
    ∧ get_display_html ⟨none, some "One\n\nTwo", none⟩ .nil = "<p>One</p><p>Two</p>"
    ∧ get_display_html ⟨none, some "One\nTwo\nThree", none⟩ .nil =
        "<p>One</p><p>Two</p><p>Three</p>" := by
  refine ⟨fun s => ?_, by decide, by decide⟩
  unfold renderParas renderParasTrimmed
  rw [filterMap_filter_map]

end Carrabis
